import Mathlib

/-!
Verification of the LOGO lexer/parser (src/main.rs).

The Rust program tokenizes a turtle-graphics program with a regex-driven
lexer and parses the token stream with a recursive procedure `build`
threading an explicit matching stack.  Panics in the Rust code are modelled
as values of the error type `Err`; the mutable `VecDeque<Token>` is modelled
as a `List Token` consumed from the front, and the matching stack (used only
through `push_back`/`pop_back`) as a `List Token` whose head is the back of
the deque.

The parsing functions are defined with an explicit fuel argument (structural
recursion on the fuel) so that they compute by kernel reduction; the
canonical entry points fix the fuel at `tokens.length + 1`, which is proved
sufficient (`stableF`), and every reachable recursive call strictly consumes
tokens, so the artificial out-of-fuel branch is unreachable from the
canonical entry points.
-/

namespace Logo

/-- The token type (enum Token in src/main.rs). -/
inductive Token where
  | Forward
  | Back
  | Right
  | Left
  | Repeat
  | LBracket
  | RBracket
  | To
  | End
  | Number (n : Int)
  | Ident (s : String)
  | Var (s : String)
  | If
  | Gtr
  | Less
  deriving DecidableEq

/-- The expression type (enum Expression in src/main.rs). -/
inductive Expression where
  | Forward (e : Expression)
  | Back (e : Expression)
  | Right (e : Expression)
  | Left (e : Expression)
  | Repeat (count : Expression) (body : List Expression)
  | To (name : Expression) (args : List Expression) (body : List Expression)
  | Call (name : Expression) (args : List Expression)
  | Number (n : Int)
  | Ident (s : String)
  | Var (s : String)

/-- The failure modes of the program: each constructor models one of the
`panic!` calls in src/main.rs (`OutOfFuel` is the artificial fuel-exhaustion
branch of the fueled definitions, proved unreachable from the canonical
entry points). -/
inductive Err where
  | OutOfFuel
  | UnexpectedToken (t : Token)
  | ExpectedVariable (t : Option Token)
  | ExpectedLBracket (t : Option Token)
  | ExpectedIdentifier (t : Option Token)
  | UnmatchedCloser (opener closer : Token)
  | MissingRBracket
  | MissingEnd
  deriving DecidableEq

/-- fn build_var (src/main.rs:104-111): pop the front token, which must be a
number or a variable.  The returned list is the deque after the pop. -/
def build_var : List Token → Except Err (Expression × List Token)
  | Token.Number x :: rest => .ok (Expression.Number x, rest)
  | Token.Var x :: rest => .ok (Expression.Var x, rest)
  | x :: _ => .error (.ExpectedVariable (some x))
  | [] => .error (.ExpectedVariable none)

/-- fn build_name (src/main.rs:137-143): pop the front token, which must be
an identifier. -/
def build_name : List Token → Except Err (Expression × List Token)
  | Token.Ident x :: rest => .ok (Expression.Ident x, rest)
  | x :: _ => .error (.ExpectedIdentifier (some x))
  | [] => .error (.ExpectedIdentifier none)

/-- The greedy parameter loop of fn build_to (src/main.rs:127-133): peek the
front token and consume it while it is a variable. -/
def to_args : List Token → List Expression × List Token
  | Token.Var x :: rest =>
    let p := to_args rest
    (Expression.Var x :: p.1, p.2)
  | ts => ([], ts)

/-- The greedy argument loop of fn build_call (src/main.rs:148-155): peek
the front token and consume it while it is a variable or a number. -/
def call_args : List Token → List Expression × List Token
  | Token.Var x :: rest =>
    let p := call_args rest
    (Expression.Var x :: p.1, p.2)
  | Token.Number x :: rest =>
    let p := call_args rest
    (Expression.Number x :: p.1, p.2)
  | ts => ([], ts)

/-- fn build_call (src/main.rs:145-158): greedily consume number/variable
arguments and wrap them in a Call node. -/
def build_call (tokens : List Token) (name : String) : Expression × List Token :=
  let p := call_args tokens
  (Expression.Call (Expression.Ident name) p.1, p.2)

/-- fn pop_stack (src/main.rs:160-170): pop the back of the matching stack
and require it to equal the expected opener; the panic for an empty stack
and for a mismatched top carry the same message. -/
def pop_stack (opener closer : Token) (stack : List Token) : Except Err (List Token) :=
  match stack with
  | token :: rest =>
    if token = opener then .ok rest
    else .error (.UnmatchedCloser opener closer)
  | [] => .error (.UnmatchedCloser opener closer)

mutual

/-- fn build (src/main.rs:82-102), fueled.  The while loop is modelled as
recursion on the token list: each iteration pops the front token and
dispatches on it.  The `RBracket` and `End` arms pop the matching stack and
the loop continues (the Rust code has no `return`/`break` there).  The
result carries the produced expressions, the remaining deque (empty on
every `ok` return, since the loop only exits when the deque is exhausted)
and the final stack. -/
def buildF : Nat → List Token → List Token →
    Except Err (List Expression × List Token × List Token)
  | 0, _, _ => .error .OutOfFuel
  | fuel + 1, tokens, stack =>
    match tokens with
    | [] => .ok ([], [], stack)
    | next :: rest =>
      match next with
      | .Forward =>
        match build_var rest with
        | .error e => .error e
        | .ok (v, r) =>
          match buildF fuel r stack with
          | .error e => .error e
          | .ok (exps, rem, stk) => .ok (Expression.Forward v :: exps, rem, stk)
      | .Back =>
        match build_var rest with
        | .error e => .error e
        | .ok (v, r) =>
          match buildF fuel r stack with
          | .error e => .error e
          | .ok (exps, rem, stk) => .ok (Expression.Back v :: exps, rem, stk)
      | .Right =>
        match build_var rest with
        | .error e => .error e
        | .ok (v, r) =>
          match buildF fuel r stack with
          | .error e => .error e
          | .ok (exps, rem, stk) => .ok (Expression.Right v :: exps, rem, stk)
      | .Left =>
        match build_var rest with
        | .error e => .error e
        | .ok (v, r) =>
          match buildF fuel r stack with
          | .error e => .error e
          | .ok (exps, rem, stk) => .ok (Expression.Left v :: exps, rem, stk)
      | .Repeat =>
        match build_repeatF fuel rest stack with
        | .error e => .error e
        | .ok (exp, rem, stk) =>
          match buildF fuel rem stk with
          | .error e => .error e
          | .ok (exps, rem2, stk2) => .ok (exp :: exps, rem2, stk2)
      | .RBracket =>
        match pop_stack .LBracket .RBracket stack with
        | .error e => .error e
        | .ok stk => buildF fuel rest stk
      | .To =>
        match build_toF fuel rest stack with
        | .error e => .error e
        | .ok (exp, rem, stk) =>
          match buildF fuel rem stk with
          | .error e => .error e
          | .ok (exps, rem2, stk2) => .ok (exp :: exps, rem2, stk2)
      | .End =>
        match pop_stack .To .End stack with
        | .error e => .error e
        | .ok stk => buildF fuel rest stk
      | .Ident x =>
        match build_call rest x with
        | (exp, r) =>
          match buildF fuel r stack with
          | .error e => .error e
          | .ok (exps, rem, stk) => .ok (exp :: exps, rem, stk)
      | t => .error (.UnexpectedToken t)

/-- fn build_repeat (src/main.rs:113-121), fueled: parse the count, push
LBracket on the matching stack, require a literal `[`, then recurse into
`build` for the block body. -/
def build_repeatF : Nat → List Token → List Token →
    Except Err (Expression × List Token × List Token)
  | 0, _, _ => .error .OutOfFuel
  | fuel + 1, tokens, stack =>
    match build_var tokens with
    | .error e => .error e
    | .ok (count, rest) =>
      let stack1 := Token.LBracket :: stack
      match rest with
      | .LBracket :: rest2 =>
        match buildF fuel rest2 stack1 with
        | .error e => .error e
        | .ok (body, rem, stk) => .ok (Expression.Repeat count body, rem, stk)
      | t :: _ => .error (.ExpectedLBracket (some t))
      | [] => .error (.ExpectedLBracket none)

/-- fn build_to (src/main.rs:123-135), fueled: parse the procedure name,
push To on the matching stack, greedily consume variable parameters, then
recurse into `build` for the body. -/
def build_toF : Nat → List Token → List Token →
    Except Err (Expression × List Token × List Token)
  | 0, _, _ => .error .OutOfFuel
  | fuel + 1, tokens, stack =>
    match build_name tokens with
    | .error e => .error e
    | .ok (ident, rest) =>
      let stack1 := Token.To :: stack
      match to_args rest with
      | (args, rest2) =>
        match buildF fuel rest2 stack1 with
        | .error e => .error e
        | .ok (body, rem, stk) => .ok (Expression.To ident args body, rem, stk)

end

/-- fn build with the canonical (sufficient) fuel. -/
def build (tokens stack : List Token) :
    Except Err (List Expression × List Token × List Token) :=
  buildF (tokens.length + 1) tokens stack

/-- fn build_repeat with the canonical fuel. -/
def build_repeat (tokens stack : List Token) :
    Except Err (Expression × List Token × List Token) :=
  build_repeatF (tokens.length + 1) tokens stack

/-- fn build_to with the canonical fuel. -/
def build_to (tokens stack : List Token) :
    Except Err (Expression × List Token × List Token) :=
  build_toF (tokens.length + 1) tokens stack

/-- The parsing phase of fn main (src/main.rs:71-79): run `build` on the
token stream with an empty matching stack, then pop the back of the
residual stack and fail if an opener is still pending. -/
def parse_program (tokens : List Token) : Except Err (List Expression) :=
  match build tokens [] with
  | .error e => .error e
  | .ok (exps, _, stack) =>
    match stack with
    | Token.LBracket :: _ => .error .MissingRBracket
    | Token.To :: _ => .error .MissingEnd
    | _ => .ok exps

/-- The character class [a-zA-Z0-9] of the lexer regex. -/
def is_tok_char (c : Char) : Bool := c.isAlpha || c.isDigit

/-- Rust `str::parse::<i32>` restricted to what matters here: an optional
sign followed by a nonempty run of decimal digits, with the value within
the i32 range; anything else fails.  `digits_aux` accumulates the value. -/
def digits_aux : Nat → List Char → Option Nat
  | acc, [] => some acc
  | acc, c :: cs =>
    if c.isDigit then digits_aux (acc * 10 + (c.toNat - 48)) cs else none

/-- A nonempty all-digit string evaluated as a natural number. -/
def digits_to_nat : List Char → Option Nat
  | [] => none
  | cs => digits_aux 0 cs

/-- Model of Rust `str::parse::<i32>` (used at src/main.rs:57). -/
def parse_i32 (s : String) : Option Int :=
  match s.data with
  | '+' :: cs =>
    match digits_to_nat cs with
    | some n => if n ≤ 2147483647 then some (n : Int) else none
    | none => none
  | '-' :: cs =>
    match digits_to_nat cs with
    | some n => if n ≤ 2147483648 then some (-(n : Int)) else none
    | none => none
  | cs =>
    match digits_to_nat cs with
    | some n => if n ≤ 2147483647 then some (n : Int) else none
    | none => none

/-- The classification of one matched substring (the match expression at
src/main.rs:43-67): first the twelve keyword arms, then `parse::<i32>`,
then the leading-sigil test.  The `chars().next().unwrap()` on an empty
string is modelled as `none`. -/
def classify (token : String) : Option Token :=
  if token = "forward" then some .Forward
  else if token = "back" then some .Back
  else if token = "right" then some .Right
  else if token = "left" then some .Left
  else if token = "repeat" then some .Repeat
  else if token = "[" then some .LBracket
  else if token = "]" then some .RBracket
  else if token = "to" then some .To
  else if token = "end" then some .End
  else if token = "if" then some .If
  else if token = ">" then some .Gtr
  else if token = "<" then some .Less
  else
    match parse_i32 token with
    | some n => some (.Number n)
    | none =>
      match token.data with
      | c :: _ => if c = ':' then some (.Var token) else some (.Ident token)
      | [] => none

/-- The lexer's match extraction, fueled: `find_iter` over the regex
`:*[a-zA-Z0-9]+|[0-9]+|\x5b|\x5d|(<=|<|>=|>|==|!=|!)` with leftmost-first
semantics.  At each position, the sigil/alphanumeric alternative is tried
first (a run of `:` sigils followed by a nonempty alphanumeric run; the
pure-digit alternative is subsumed by it), then the single brackets, then
the comparison operators; characters matching no alternative are skipped
without producing a match. -/
def scanF : Nat → List Char → List String
  | 0, _ => []
  | _ + 1, [] => []
  | fuel + 1, c :: cs =>
    if c = ':' || is_tok_char c then
      let colons := (c :: cs).takeWhile (fun x => x == ':')
      let rest1 := (c :: cs).dropWhile (fun x => x == ':')
      let word := rest1.takeWhile is_tok_char
      if word = [] then scanF fuel cs
      else String.mk (colons ++ word) :: scanF fuel (rest1.dropWhile is_tok_char)
    else if c = '[' || c = ']' then String.mk [c] :: scanF fuel cs
    else if c = '<' || c = '>' then
      match cs with
      | '=' :: cs2 => String.mk [c, '='] :: scanF fuel cs2
      | _ => String.mk [c] :: scanF fuel cs
    else if c = '=' then
      match cs with
      | '=' :: cs2 => String.mk ['=', '='] :: scanF fuel cs2
      | _ => scanF fuel cs
    else if c = '!' then
      match cs with
      | '=' :: cs2 => String.mk ['!', '='] :: scanF fuel cs2
      | _ => String.mk ['!'] :: scanF fuel cs
    else scanF fuel cs

/-- The lexer's match extraction with the canonical (sufficient) fuel. -/
def scan (l : List Char) : List String := scanF (l.length + 1) l

/-- Classification of every matched substring in order; `none` propagates
the panic on an empty match (proved unreachable). -/
def classify_all : List String → Option (List Token)
  | [] => some []
  | s :: rest =>
    match classify s with
    | none => none
    | some t =>
      match classify_all rest with
      | none => none
      | some ts => some (t :: ts)

/-- The full lexer loop (src/main.rs:41-69): scan the text and classify
every matched substring in order. -/
def tokenize (l : List Char) : Option (List Token) :=
  classify_all (scan l)

/-- VecDeque::pop_front on the front-to-back list model of the deque. -/
def pop_front : List Token → Option (Token × List Token)
  | [] => none
  | t :: ts => some (t, ts)

/-- The balancedness condition of the spec, as a stack machine over the
opener/closer tokens only: every `\x5b` has a matching `\x5d`, every `to`
has a matching `end`, correctly nested. -/
def balanced_from : List Token → List Token → Bool
  | [], stk => stk.isEmpty
  | Token.LBracket :: rest, stk => balanced_from rest (Token.LBracket :: stk)
  | Token.To :: rest, stk => balanced_from rest (Token.To :: stk)
  | Token.RBracket :: rest, Token.LBracket :: stk => balanced_from rest stk
  | Token.End :: rest, Token.To :: stk => balanced_from rest stk
  | Token.RBracket :: _, _ => false
  | Token.End :: _, _ => false
  | _ :: rest, stk => balanced_from rest stk

/-- A balanced token sequence in the sense of the spec. -/
def balanced (ts : List Token) : Bool := balanced_from ts []

/-- Tokens accepted by build_var: numbers and variables. -/
def is_arg : Token → Bool
  | .Number _ => true
  | .Var _ => true
  | _ => false

/-- Variable tokens (the ones the parameter loop of build_to consumes). -/
def is_var : Token → Bool
  | .Var _ => true
  | _ => false

/-- The four directional command tokens. -/
def is_dir : Token → Bool
  | .Forward => true
  | .Back => true
  | .Right => true
  | .Left => true
  | _ => false

/-- The comparison/conditional tokens the parser has no rule for. -/
def is_cmp : Token → Bool
  | .If => true
  | .Gtr => true
  | .Less => true
  | _ => false

/-- Construct the directional expression node matching a directional
token (identity on non-directional tokens; only used under `is_dir`). -/
def dir_exp (t : Token) (e : Expression) : Expression :=
  match t with
  | .Forward => Expression.Forward e
  | .Back => Expression.Back e
  | .Right => Expression.Right e
  | .Left => Expression.Left e
  | _ => e

lemma build_var_ok {ts : List Token} {e : Expression} {r : List Token}
    (h : build_var ts = .ok (e, r)) : ∃ t, ts = t :: r ∧ is_arg t = true := by
  cases ts with
  | nil => simp [build_var] at h
  | cons t rest =>
    cases t <;> simp [build_var] at h
    case Number n => exact ⟨Token.Number n, by rw [h.2], rfl⟩
    case Var x => exact ⟨Token.Var x, by rw [h.2], rfl⟩

lemma build_var_len {ts : List Token} {e : Expression} {r : List Token}
    (h : build_var ts = .ok (e, r)) : ts.length = r.length + 1 := by
  obtain ⟨t, ht, _⟩ := build_var_ok h
  rw [ht]; rfl

lemma build_name_ok {ts : List Token} {e : Expression} {r : List Token}
    (h : build_name ts = .ok (e, r)) :
    ∃ x, ts = Token.Ident x :: r ∧ e = Expression.Ident x := by
  cases ts with
  | nil => simp [build_name] at h
  | cons t rest =>
    cases t <;> simp [build_name] at h
    case Ident x => exact ⟨x, by rw [h.2], by rw [h.1]⟩

lemma build_name_len {ts : List Token} {e : Expression} {r : List Token}
    (h : build_name ts = .ok (e, r)) : ts.length = r.length + 1 := by
  obtain ⟨x, ht, _⟩ := build_name_ok h
  rw [ht]; rfl

lemma to_args_snd_le (ts : List Token) : (to_args ts).2.length ≤ ts.length := by
  induction ts with
  | nil => simp [to_args]
  | cons t rest ih =>
    cases t <;> simp [to_args] <;> omega

lemma call_args_snd_le (ts : List Token) : (call_args ts).2.length ≤ ts.length := by
  induction ts with
  | nil => simp [call_args]
  | cons t rest ih =>
    cases t <;> simp [call_args] <;> omega

lemma build_call_snd_le (ts : List Token) (x : String) :
    (build_call ts x).2.length ≤ ts.length := by
  simpa [build_call] using call_args_snd_le ts

/-- On every successful return of the parsing functions the remaining
deque is empty: the while loop of build only exits when the deque is
exhausted. -/
lemma remF_nil : ∀ fuel,
    (∀ ts s es rem st, buildF fuel ts s = .ok (es, rem, st) → rem = []) ∧
    (∀ ts s e rem st, build_repeatF fuel ts s = .ok (e, rem, st) → rem = []) ∧
    (∀ ts s e rem st, build_toF fuel ts s = .ok (e, rem, st) → rem = []) := by
  intro fuel
  induction fuel with
  | zero =>
    refine ⟨?_, ?_, ?_⟩ <;> intro ts s a rem st h <;>
      simp [buildF, build_repeatF, build_toF] at h
  | succ f ih =>
    obtain ⟨ihb, ihr, iht⟩ := ih
    refine ⟨?_, ?_, ?_⟩
    · intro ts s es rem st h
      cases ts with
      | nil =>
        simp [buildF] at h
        exact h.2.1
      | cons next rest =>
        cases next with
        | Forward =>
          cases hv : build_var rest with
          | error e => simp [buildF, hv] at h
          | ok p =>
            obtain ⟨v, r⟩ := p
            cases hb : buildF f r s with
            | error e => simp [buildF, hv, hb] at h
            | ok q =>
              obtain ⟨exps, rem1, stk1⟩ := q
              simp [buildF, hv, hb] at h
              obtain ⟨h1, h2, h3⟩ := h
              subst h2
              exact ihb _ _ _ _ _ hb
        | Back =>
          cases hv : build_var rest with
          | error e => simp [buildF, hv] at h
          | ok p =>
            obtain ⟨v, r⟩ := p
            cases hb : buildF f r s with
            | error e => simp [buildF, hv, hb] at h
            | ok q =>
              obtain ⟨exps, rem1, stk1⟩ := q
              simp [buildF, hv, hb] at h
              obtain ⟨h1, h2, h3⟩ := h
              subst h2
              exact ihb _ _ _ _ _ hb
        | Right =>
          cases hv : build_var rest with
          | error e => simp [buildF, hv] at h
          | ok p =>
            obtain ⟨v, r⟩ := p
            cases hb : buildF f r s with
            | error e => simp [buildF, hv, hb] at h
            | ok q =>
              obtain ⟨exps, rem1, stk1⟩ := q
              simp [buildF, hv, hb] at h
              obtain ⟨h1, h2, h3⟩ := h
              subst h2
              exact ihb _ _ _ _ _ hb
        | Left =>
          cases hv : build_var rest with
          | error e => simp [buildF, hv] at h
          | ok p =>
            obtain ⟨v, r⟩ := p
            cases hb : buildF f r s with
            | error e => simp [buildF, hv, hb] at h
            | ok q =>
              obtain ⟨exps, rem1, stk1⟩ := q
              simp [buildF, hv, hb] at h
              obtain ⟨h1, h2, h3⟩ := h
              subst h2
              exact ihb _ _ _ _ _ hb
        | Repeat =>
          cases hr : build_repeatF f rest s with
          | error e => simp [buildF, hr] at h
          | ok p =>
            obtain ⟨exp, rem1, stk1⟩ := p
            cases hb : buildF f rem1 stk1 with
            | error e => simp [buildF, hr, hb] at h
            | ok q =>
              obtain ⟨exps, rem2, stk2⟩ := q
              simp [buildF, hr, hb] at h
              obtain ⟨h1, h2, h3⟩ := h
              subst h2
              exact ihb _ _ _ _ _ hb
        | To =>
          cases hr : build_toF f rest s with
          | error e => simp [buildF, hr] at h
          | ok p =>
            obtain ⟨exp, rem1, stk1⟩ := p
            cases hb : buildF f rem1 stk1 with
            | error e => simp [buildF, hr, hb] at h
            | ok q =>
              obtain ⟨exps, rem2, stk2⟩ := q
              simp [buildF, hr, hb] at h
              obtain ⟨h1, h2, h3⟩ := h
              subst h2
              exact ihb _ _ _ _ _ hb
        | RBracket =>
          cases hp : pop_stack .LBracket .RBracket s with
          | error e => simp [buildF, hp] at h
          | ok stk =>
            simp only [buildF] at h
            rw [hp] at h
            exact ihb _ _ _ _ _ h
        | End =>
          cases hp : pop_stack .To .End s with
          | error e => simp [buildF, hp] at h
          | ok stk =>
            simp only [buildF] at h
            rw [hp] at h
            exact ihb _ _ _ _ _ h
        | Ident x =>
          cases hc : build_call rest x with
          | mk exp r =>
            cases hb : buildF f r s with
            | error e => simp [buildF, hc, hb] at h
            | ok q =>
              obtain ⟨exps, rem1, stk1⟩ := q
              simp [buildF, hc, hb] at h
              obtain ⟨h1, h2, h3⟩ := h
              subst h2
              exact ihb _ _ _ _ _ hb
        | Number n => simp [buildF] at h
        | Var x => simp [buildF] at h
        | LBracket => simp [buildF] at h
        | If => simp [buildF] at h
        | Gtr => simp [buildF] at h
        | Less => simp [buildF] at h
    · intro ts s e rem st h
      cases hv : build_var ts with
      | error e2 => simp [build_repeatF, hv] at h
      | ok p =>
        obtain ⟨count, rest⟩ := p
        cases rest with
        | nil => simp [build_repeatF, hv] at h
        | cons t rest2 =>
          cases t <;> simp [build_repeatF, hv] at h
          case LBracket =>
            cases hb : buildF f rest2 (Token.LBracket :: s) with
            | error e2 => simp [hb] at h
            | ok q =>
              obtain ⟨body, rem1, stk1⟩ := q
              simp [hb] at h
              obtain ⟨h1, h2, h3⟩ := h
              subst h2
              exact ihb _ _ _ _ _ hb
    · intro ts s e rem st h
      cases hn : build_name ts with
      | error e2 => simp [build_toF, hn] at h
      | ok p =>
        obtain ⟨ident, rest⟩ := p
        cases hta : to_args rest with
        | mk args rest2 =>
          cases hb : buildF f rest2 (Token.To :: s) with
          | error e2 => simp [build_toF, hn, hta, hb] at h
          | ok q =>
            obtain ⟨body, rem1, stk1⟩ := q
            simp [build_toF, hn, hta, hb] at h
            obtain ⟨h1, h2, h3⟩ := h
            subst h2
            exact ihb _ _ _ _ _ hb

/-- Two fuels both strictly above the number of tokens compute the same
result: the fueled functions are stable once the fuel exceeds the length
of the deque. -/
lemma stableF : ∀ f,
    (∀ g ts s, ts.length < f → ts.length < g → buildF f ts s = buildF g ts s) ∧
    (∀ g ts s, ts.length < f → ts.length < g →
      build_repeatF f ts s = build_repeatF g ts s) ∧
    (∀ g ts s, ts.length < f → ts.length < g → build_toF f ts s = build_toF g ts s) := by
  intro f
  induction f using Nat.strong_induction_on with
  | _ f ih =>
    cases f with
    | zero =>
      refine ⟨?_, ?_, ?_⟩ <;> (intro g ts s h1 h2; exact absurd h1 (by omega))
    | succ f =>
      refine ⟨?_, ?_, ?_⟩
      · intro g ts s h1 h2
        cases g with
        | zero => exact absurd h2 (by omega)
        | succ g =>
          cases ts with
          | nil => simp [buildF]
          | cons next rest =>
            have hf : rest.length < f := by simpa using h1
            have hg : rest.length < g := by simpa using h2
            cases next with
            | Forward =>
              simp only [buildF]
              cases hv : build_var rest with
              | error e => simp [hv]
              | ok p =>
                obtain ⟨v, r⟩ := p
                have hr : rest.length = r.length + 1 := build_var_len hv
                have e2 : buildF f r s = buildF g r s :=
                  (ih f (by omega)).1 g r s (by omega) (by omega)
                simp [hv, e2]
            | Back =>
              simp only [buildF]
              cases hv : build_var rest with
              | error e => simp [hv]
              | ok p =>
                obtain ⟨v, r⟩ := p
                have hr : rest.length = r.length + 1 := build_var_len hv
                have e2 : buildF f r s = buildF g r s :=
                  (ih f (by omega)).1 g r s (by omega) (by omega)
                simp [hv, e2]
            | Right =>
              simp only [buildF]
              cases hv : build_var rest with
              | error e => simp [hv]
              | ok p =>
                obtain ⟨v, r⟩ := p
                have hr : rest.length = r.length + 1 := build_var_len hv
                have e2 : buildF f r s = buildF g r s :=
                  (ih f (by omega)).1 g r s (by omega) (by omega)
                simp [hv, e2]
            | Left =>
              simp only [buildF]
              cases hv : build_var rest with
              | error e => simp [hv]
              | ok p =>
                obtain ⟨v, r⟩ := p
                have hr : rest.length = r.length + 1 := build_var_len hv
                have e2 : buildF f r s = buildF g r s :=
                  (ih f (by omega)).1 g r s (by omega) (by omega)
                simp [hv, e2]
            | Repeat =>
              simp only [buildF]
              have er : build_repeatF f rest s = build_repeatF g rest s :=
                (ih f (by omega)).2.1 g rest s (by omega) (by omega)
              rw [er]
              cases hbr : build_repeatF g rest s with
              | error e => simp
              | ok p =>
                obtain ⟨exp, rem1, stk1⟩ := p
                have hrem : rem1 = [] := (remF_nil g).2.1 _ _ _ _ _ hbr
                subst hrem
                have e2 : buildF f [] stk1 = buildF g [] stk1 :=
                  (ih f (by omega)).1 g [] stk1 (by simp; omega) (by simp; omega)
                simp [e2]
            | RBracket =>
              simp only [buildF]
              cases hp : pop_stack .LBracket .RBracket s with
              | error e => simp [hp]
              | ok stk =>
                have e2 : buildF f rest stk = buildF g rest stk :=
                  (ih f (by omega)).1 g rest stk (by omega) (by omega)
                simp [hp, e2]
            | To =>
              simp only [buildF]
              have er : build_toF f rest s = build_toF g rest s :=
                (ih f (by omega)).2.2 g rest s (by omega) (by omega)
              rw [er]
              cases hbr : build_toF g rest s with
              | error e => simp
              | ok p =>
                obtain ⟨exp, rem1, stk1⟩ := p
                have hrem : rem1 = [] := (remF_nil g).2.2 _ _ _ _ _ hbr
                subst hrem
                have e2 : buildF f [] stk1 = buildF g [] stk1 :=
                  (ih f (by omega)).1 g [] stk1 (by simp; omega) (by simp; omega)
                simp [e2]
            | End =>
              simp only [buildF]
              cases hp : pop_stack .To .End s with
              | error e => simp [hp]
              | ok stk =>
                have e2 : buildF f rest stk = buildF g rest stk :=
                  (ih f (by omega)).1 g rest stk (by omega) (by omega)
                simp [hp, e2]
            | Ident x =>
              simp only [buildF]
              cases hc : build_call rest x with
              | mk exp r =>
                have hrle : r.length ≤ rest.length := by
                  have h3 := build_call_snd_le rest x
                  rw [hc] at h3
                  simpa using h3
                have e2 : buildF f r s = buildF g r s :=
                  (ih f (by omega)).1 g r s (by omega) (by omega)
                simp [hc, e2]
            | Number n => simp [buildF]
            | Var x => simp [buildF]
            | LBracket => simp [buildF]
            | If => simp [buildF]
            | Gtr => simp [buildF]
            | Less => simp [buildF]
      · intro g ts s h1 h2
        cases g with
        | zero => exact absurd h2 (by omega)
        | succ g =>
          simp only [build_repeatF]
          cases hv : build_var ts with
          | error e => simp [hv]
          | ok p =>
            obtain ⟨count, rest⟩ := p
            have hr : ts.length = rest.length + 1 := build_var_len hv
            cases rest with
            | nil => simp [hv]
            | cons t rest2 =>
              have hr2 : ts.length = rest2.length + 2 := by simpa using hr
              cases t with
              | LBracket =>
                have e2 : buildF f rest2 (Token.LBracket :: s) =
                    buildF g rest2 (Token.LBracket :: s) :=
                  (ih f (by omega)).1 g _ _ (by omega) (by omega)
                simp [hv, e2]
              | Forward => simp [hv]
              | Back => simp [hv]
              | Right => simp [hv]
              | Left => simp [hv]
              | Repeat => simp [hv]
              | RBracket => simp [hv]
              | To => simp [hv]
              | End => simp [hv]
              | Ident y => simp [hv]
              | Number n => simp [hv]
              | Var y => simp [hv]
              | If => simp [hv]
              | Gtr => simp [hv]
              | Less => simp [hv]
      · intro g ts s h1 h2
        cases g with
        | zero => exact absurd h2 (by omega)
        | succ g =>
          simp only [build_toF]
          cases hn : build_name ts with
          | error e => simp [hn]
          | ok p =>
            obtain ⟨ident, rest⟩ := p
            have hr : ts.length = rest.length + 1 := build_name_len hn
            cases hta : to_args rest with
            | mk args rest2 =>
              have hr2 : rest2.length ≤ rest.length := by
                have h3 := to_args_snd_le rest
                rw [hta] at h3
                simpa using h3
              have e2 : buildF f rest2 (Token.To :: s) = buildF g rest2 (Token.To :: s) :=
                (ih f (by omega)).1 g _ _ (by omega) (by omega)
              simp [hn, hta, e2]

/-- buildF at any sufficient fuel agrees with the canonical build. -/
lemma buildF_stable {fuel : Nat} {ts s : List Token} (h : ts.length < fuel) :
    buildF fuel ts s = build ts s :=
  (stableF fuel).1 (ts.length + 1) ts s h (by omega)

/-- build_repeatF at any sufficient fuel agrees with build_repeat. -/
lemma build_repeatF_stable {fuel : Nat} {ts s : List Token} (h : ts.length < fuel) :
    build_repeatF fuel ts s = build_repeat ts s :=
  (stableF fuel).2.1 (ts.length + 1) ts s h (by omega)

/-- build_toF at any sufficient fuel agrees with build_to. -/
lemma build_toF_stable {fuel : Nat} {ts s : List Token} (h : ts.length < fuel) :
    build_toF fuel ts s = build_to ts s :=
  (stableF fuel).2.2 (ts.length + 1) ts s h (by omega)

lemma build_rem_nil {ts s : List Token} {es : List Expression} {rem st : List Token}
    (h : build ts s = .ok (es, rem, st)) : rem = [] :=
  (remF_nil (ts.length + 1)).1 _ _ _ _ _ h

lemma build_repeat_rem_nil {ts s : List Token} {e : Expression} {rem st : List Token}
    (h : build_repeat ts s = .ok (e, rem, st)) : rem = [] :=
  (remF_nil (ts.length + 1)).2.1 _ _ _ _ _ h

lemma build_to_rem_nil {ts s : List Token} {e : Expression} {rem st : List Token}
    (h : build_to ts s = .ok (e, rem, st)) : rem = [] :=
  (remF_nil (ts.length + 1)).2.2 _ _ _ _ _ h

lemma buildF_step_forward (g : Nat) (rest s : List Token) :
    buildF (g + 1) (Token.Forward :: rest) s =
      (match build_var rest with
       | .error e => .error e
       | .ok (v, r) =>
         match buildF g r s with
         | .error e => .error e
         | .ok (es, rem, st) => .ok (Expression.Forward v :: es, rem, st)) := rfl

lemma buildF_step_back (g : Nat) (rest s : List Token) :
    buildF (g + 1) (Token.Back :: rest) s =
      (match build_var rest with
       | .error e => .error e
       | .ok (v, r) =>
         match buildF g r s with
         | .error e => .error e
         | .ok (es, rem, st) => .ok (Expression.Back v :: es, rem, st)) := rfl

lemma buildF_step_right (g : Nat) (rest s : List Token) :
    buildF (g + 1) (Token.Right :: rest) s =
      (match build_var rest with
       | .error e => .error e
       | .ok (v, r) =>
         match buildF g r s with
         | .error e => .error e
         | .ok (es, rem, st) => .ok (Expression.Right v :: es, rem, st)) := rfl

lemma buildF_step_left (g : Nat) (rest s : List Token) :
    buildF (g + 1) (Token.Left :: rest) s =
      (match build_var rest with
       | .error e => .error e
       | .ok (v, r) =>
         match buildF g r s with
         | .error e => .error e
         | .ok (es, rem, st) => .ok (Expression.Left v :: es, rem, st)) := rfl

lemma buildF_step_repeat (g : Nat) (rest s : List Token) :
    buildF (g + 1) (Token.Repeat :: rest) s =
      (match build_repeatF g rest s with
       | .error e => .error e
       | .ok (exp, rem, stk) =>
         match buildF g rem stk with
         | .error e => .error e
         | .ok (exps, rem2, stk2) => .ok (exp :: exps, rem2, stk2)) := rfl

lemma buildF_step_rbracket (g : Nat) (rest s : List Token) :
    buildF (g + 1) (Token.RBracket :: rest) s =
      (match pop_stack .LBracket .RBracket s with
       | .error e => .error e
       | .ok stk => buildF g rest stk) := rfl

lemma buildF_step_to (g : Nat) (rest s : List Token) :
    buildF (g + 1) (Token.To :: rest) s =
      (match build_toF g rest s with
       | .error e => .error e
       | .ok (exp, rem, stk) =>
         match buildF g rem stk with
         | .error e => .error e
         | .ok (exps, rem2, stk2) => .ok (exp :: exps, rem2, stk2)) := rfl

lemma buildF_step_end (g : Nat) (rest s : List Token) :
    buildF (g + 1) (Token.End :: rest) s =
      (match pop_stack .To .End s with
       | .error e => .error e
       | .ok stk => buildF g rest stk) := rfl

lemma buildF_step_ident (g : Nat) (x : String) (rest s : List Token) :
    buildF (g + 1) (Token.Ident x :: rest) s =
      (match build_call rest x with
       | (exp, r) =>
         match buildF g r s with
         | .error e => .error e
         | .ok (es, rem, st) => .ok (exp :: es, rem, st)) := rfl

lemma build_repeatF_step (g : Nat) (ts s : List Token) :
    build_repeatF (g + 1) ts s =
      (match build_var ts with
       | .error e => .error e
       | .ok (count, rest) =>
         match rest with
         | Token.LBracket :: rest2 =>
           (match buildF g rest2 (Token.LBracket :: s) with
            | .error e => .error e
            | .ok (body, rem, stk) => .ok (Expression.Repeat count body, rem, stk))
         | t :: _ => .error (.ExpectedLBracket (some t))
         | [] => .error (.ExpectedLBracket none)) := rfl

lemma build_toF_step (g : Nat) (ts s : List Token) :
    build_toF (g + 1) ts s =
      (match build_name ts with
       | .error e => .error e
       | .ok (ident, rest) =>
         match to_args rest with
         | (args, rest2) =>
           match buildF g rest2 (Token.To :: s) with
           | .error e => .error e
           | .ok (body, rem, stk) => .ok (Expression.To ident args body, rem, stk)) := rfl

/-- The recursion equation of build on an empty deque: the while loop does
not run. -/
lemma build_nil (s : List Token) : build [] s = .ok ([], [], s) := rfl

/-- The recursion equation of build on a Forward dispatch. -/
lemma build_cons_forward (rest s : List Token) :
    build (Token.Forward :: rest) s =
      (match build_var rest with
       | .error e => .error e
       | .ok (v, r) =>
         match build r s with
         | .error e => .error e
         | .ok (es, rem, st) => .ok (Expression.Forward v :: es, rem, st)) := by
  simp only [build, List.length_cons]
  rw [buildF_step_forward]
  cases hv : build_var rest with
  | error e => rfl
  | ok p =>
    obtain ⟨v, r⟩ := p
    have hr : rest.length = r.length + 1 := build_var_len hv
    dsimp only
    rw [buildF_stable (by omega)]
    rfl

/-- The recursion equation of build on a Back dispatch. -/
lemma build_cons_back (rest s : List Token) :
    build (Token.Back :: rest) s =
      (match build_var rest with
       | .error e => .error e
       | .ok (v, r) =>
         match build r s with
         | .error e => .error e
         | .ok (es, rem, st) => .ok (Expression.Back v :: es, rem, st)) := by
  simp only [build, List.length_cons]
  rw [buildF_step_back]
  cases hv : build_var rest with
  | error e => rfl
  | ok p =>
    obtain ⟨v, r⟩ := p
    have hr : rest.length = r.length + 1 := build_var_len hv
    dsimp only
    rw [buildF_stable (by omega)]
    rfl

/-- The recursion equation of build on a Right dispatch. -/
lemma build_cons_right (rest s : List Token) :
    build (Token.Right :: rest) s =
      (match build_var rest with
       | .error e => .error e
       | .ok (v, r) =>
         match build r s with
         | .error e => .error e
         | .ok (es, rem, st) => .ok (Expression.Right v :: es, rem, st)) := by
  simp only [build, List.length_cons]
  rw [buildF_step_right]
  cases hv : build_var rest with
  | error e => rfl
  | ok p =>
    obtain ⟨v, r⟩ := p
    have hr : rest.length = r.length + 1 := build_var_len hv
    dsimp only
    rw [buildF_stable (by omega)]
    rfl

/-- The recursion equation of build on a Left dispatch. -/
lemma build_cons_left (rest s : List Token) :
    build (Token.Left :: rest) s =
      (match build_var rest with
       | .error e => .error e
       | .ok (v, r) =>
         match build r s with
         | .error e => .error e
         | .ok (es, rem, st) => .ok (Expression.Left v :: es, rem, st)) := by
  simp only [build, List.length_cons]
  rw [buildF_step_left]
  cases hv : build_var rest with
  | error e => rfl
  | ok p =>
    obtain ⟨v, r⟩ := p
    have hr : rest.length = r.length + 1 := build_var_len hv
    dsimp only
    rw [buildF_stable (by omega)]
    rfl

/-- The recursion equation of build on a Repeat dispatch: after the
sub-builder returns, the deque is exhausted, so the loop exits with the
Repeat node as the last expression of this invocation. -/
lemma build_cons_repeat (rest s : List Token) :
    build (Token.Repeat :: rest) s =
      (match build_repeat rest s with
       | .error e => .error e
       | .ok (exp, rem, st) => .ok ([exp], rem, st)) := by
  simp only [build, List.length_cons]
  rw [buildF_step_repeat]
  rw [build_repeatF_stable (by omega)]
  cases hbr : build_repeat rest s with
  | error e => rfl
  | ok p =>
    obtain ⟨exp, rem1, stk1⟩ := p
    have hrem : rem1 = [] := build_repeat_rem_nil hbr
    subst hrem
    dsimp only
    rw [buildF_stable (by simp)]
    rfl

/-- The recursion equation of build on an RBracket dispatch: the matching
stack is popped and the loop continues with the remaining tokens (the Rust
code does not return here). -/
lemma build_cons_rbracket (rest s : List Token) :
    build (Token.RBracket :: rest) s =
      (match pop_stack .LBracket .RBracket s with
       | .error e => .error e
       | .ok stk => build rest stk) := by
  simp only [build, List.length_cons]
  rw [buildF_step_rbracket]

/-- The recursion equation of build on a To dispatch. -/
lemma build_cons_to (rest s : List Token) :
    build (Token.To :: rest) s =
      (match build_to rest s with
       | .error e => .error e
       | .ok (exp, rem, st) => .ok ([exp], rem, st)) := by
  simp only [build, List.length_cons]
  rw [buildF_step_to]
  rw [build_toF_stable (by omega)]
  cases hbr : build_to rest s with
  | error e => rfl
  | ok p =>
    obtain ⟨exp, rem1, stk1⟩ := p
    have hrem : rem1 = [] := build_to_rem_nil hbr
    subst hrem
    dsimp only
    rw [buildF_stable (by simp)]
    rfl

/-- The recursion equation of build on an End dispatch: like RBracket, the
stack is popped and the loop continues. -/
lemma build_cons_end (rest s : List Token) :
    build (Token.End :: rest) s =
      (match pop_stack .To .End s with
       | .error e => .error e
       | .ok stk => build rest stk) := by
  simp only [build, List.length_cons]
  rw [buildF_step_end]

/-- The recursion equation of build on an Ident dispatch (a procedure
call). -/
lemma build_cons_ident (x : String) (rest s : List Token) :
    build (Token.Ident x :: rest) s =
      (match build_call rest x with
       | (exp, r) =>
         match build r s with
         | .error e => .error e
         | .ok (es, rem, st) => .ok (exp :: es, rem, st)) := by
  simp only [build, List.length_cons]
  rw [buildF_step_ident]
  cases hc : build_call rest x with
  | mk exp r =>
    have hrle : r.length <= rest.length := by
      have h3 := build_call_snd_le rest x
      rw [hc] at h3
      simpa using h3
    dsimp only
    rw [buildF_stable (by omega)]
    rfl

/-- The recursion equation of build on a Number dispatch: the catch-all
panic arm. -/
lemma build_cons_number (n : Int) (rest s : List Token) :
    build (Token.Number n :: rest) s = .error (.UnexpectedToken (.Number n)) := rfl

/-- The recursion equation of build on a Var dispatch: the catch-all panic
arm. -/
lemma build_cons_var (x : String) (rest s : List Token) :
    build (Token.Var x :: rest) s = .error (.UnexpectedToken (.Var x)) := rfl

/-- The recursion equation of build on a bare LBracket dispatch: the
catch-all panic arm. -/
lemma build_cons_lbracket (rest s : List Token) :
    build (Token.LBracket :: rest) s = .error (.UnexpectedToken .LBracket) := rfl

/-- The recursion equation of build on an If dispatch: the catch-all panic
arm. -/
lemma build_cons_if (rest s : List Token) :
    build (Token.If :: rest) s = .error (.UnexpectedToken .If) := rfl

/-- The recursion equation of build on a Gtr dispatch: the catch-all panic
arm. -/
lemma build_cons_gtr (rest s : List Token) :
    build (Token.Gtr :: rest) s = .error (.UnexpectedToken .Gtr) := rfl

/-- The recursion equation of build on a Less dispatch: the catch-all panic
arm. -/
lemma build_cons_less (rest s : List Token) :
    build (Token.Less :: rest) s = .error (.UnexpectedToken .Less) := rfl

/-- The recursion equation of build_repeat in terms of the canonical
build. -/
lemma build_repeat_eq (ts s : List Token) :
    build_repeat ts s =
      (match build_var ts with
       | .error e => .error e
       | .ok (count, rest) =>
         match rest with
         | Token.LBracket :: rest2 =>
           (match build rest2 (Token.LBracket :: s) with
            | .error e => .error e
            | .ok (body, rem, stk) => .ok (Expression.Repeat count body, rem, stk))
         | t :: _ => .error (.ExpectedLBracket (some t))
         | [] => .error (.ExpectedLBracket none)) := by
  simp only [build_repeat]
  rw [build_repeatF_step]
  cases hv : build_var ts with
  | error e => rfl
  | ok p =>
    obtain ⟨count, rest⟩ := p
    have hr : ts.length = rest.length + 1 := build_var_len hv
    cases rest with
    | nil => rfl
    | cons t rest2 =>
      cases t with
      | LBracket =>
        have hr2 : ts.length = rest2.length + 2 := by simpa using hr
        dsimp only
        rw [buildF_stable (by omega)]
      | Forward => rfl
      | Back => rfl
      | Right => rfl
      | Left => rfl
      | Repeat => rfl
      | RBracket => rfl
      | To => rfl
      | End => rfl
      | Ident y => rfl
      | Number n => rfl
      | Var y => rfl
      | If => rfl
      | Gtr => rfl
      | Less => rfl

/-- The recursion equation of build_to in terms of the canonical build. -/
lemma build_to_eq (ts s : List Token) :
    build_to ts s =
      (match build_name ts with
       | .error e => .error e
       | .ok (ident, rest) =>
         match to_args rest with
         | (args, rest2) =>
           match build rest2 (Token.To :: s) with
           | .error e => .error e
           | .ok (body, rem, stk) => .ok (Expression.To ident args body, rem, stk)) := by
  simp only [build_to]
  rw [build_toF_step]
  cases hn : build_name ts with
  | error e => rfl
  | ok p =>
    obtain ⟨ident, rest⟩ := p
    have hr : ts.length = rest.length + 1 := build_name_len hn
    have h3 := to_args_snd_le rest
    dsimp only
    rw [buildF_stable (show (to_args rest).2.length < ts.length by omega)]



/-- C1: on the spec's procedure scenario the code does NOT produce the
claimed sibling structure: because build's RBracket/End arms do not stop
the consuming loop, the closing tokens and the trailing call
`square 5` are consumed by the innermost recursive build invocation, so the
Call node ends up inside the repeat block's body instead of at top level.
This theorem records the lexer output and the actual parse result, and that
the parse result differs from the claimed one. -/
theorem c1_actual :
    tokenize "to square :side repeat 4 [ forward :side right 90 ] end square 5".data =
      some [Token.To, Token.Ident "square", Token.Var ":side", Token.Repeat,
        Token.Number 4, Token.LBracket, Token.Forward, Token.Var ":side",
        Token.Right, Token.Number 90, Token.RBracket, Token.End,
        Token.Ident "square", Token.Number 5] ∧
    parse_program [Token.To, Token.Ident "square", Token.Var ":side", Token.Repeat,
        Token.Number 4, Token.LBracket, Token.Forward, Token.Var ":side",
        Token.Right, Token.Number 90, Token.RBracket, Token.End,
        Token.Ident "square", Token.Number 5] =
      .ok [Expression.To (Expression.Ident "square") [Expression.Var ":side"]
        [Expression.Repeat (Expression.Number 4)
          [Expression.Forward (Expression.Var ":side"),
           Expression.Right (Expression.Number 90),
           Expression.Call (Expression.Ident "square") [Expression.Number 5]]]] ∧
    parse_program [Token.To, Token.Ident "square", Token.Var ":side", Token.Repeat,
        Token.Number 4, Token.LBracket, Token.Forward, Token.Var ":side",
        Token.Right, Token.Number 90, Token.RBracket, Token.End,
        Token.Ident "square", Token.Number 5] ≠
      .ok [Expression.To (Expression.Ident "square") [Expression.Var ":side"]
        [Expression.Repeat (Expression.Number 4)
          [Expression.Forward (Expression.Var ":side"),
           Expression.Right (Expression.Number 90)]],
        Expression.Call (Expression.Ident "square") [Expression.Number 5]] := by
  refine ⟨by decide, rfl, ?_⟩
  intro h
  rw [show parse_program [Token.To, Token.Ident "square", Token.Var ":side",
      Token.Repeat, Token.Number 4, Token.LBracket, Token.Forward,
      Token.Var ":side", Token.Right, Token.Number 90, Token.RBracket,
      Token.End, Token.Ident "square", Token.Number 5] =
      .ok [Expression.To (Expression.Ident "square") [Expression.Var ":side"]
        [Expression.Repeat (Expression.Number 4)
          [Expression.Forward (Expression.Var ":side"),
           Expression.Right (Expression.Number 90),
           Expression.Call (Expression.Ident "square") [Expression.Number 5]]]]
    from rfl] at h
  simp at h

/-- C2: tokens appearing after the `]` that closes a block are NOT parsed
into the enclosing sequence: the RBracket arm of build pops the stack and
the same loop keeps consuming, so `forward 10` lands inside the repeat
body.  (The enclosing invocation then finds the deque exhausted.) -/
theorem c2_actual :
    tokenize "repeat 4 [ ] forward 10".data =
      some [Token.Repeat, Token.Number 4, Token.LBracket, Token.RBracket,
        Token.Forward, Token.Number 10] ∧
    parse_program [Token.Repeat, Token.Number 4, Token.LBracket, Token.RBracket,
        Token.Forward, Token.Number 10] =
      .ok [Expression.Repeat (Expression.Number 4)
        [Expression.Forward (Expression.Number 10)]] :=
  ⟨by decide, rfl⟩

/-- C4: the nested scenario parses to exactly one top-level Repeat node
with the two directional commands in its body, and the residual matching
stack is empty. -/
theorem c4_nested_scenario :
    tokenize "repeat 4 [ forward 10 right 90 ]".data =
      some [Token.Repeat, Token.Number 4, Token.LBracket, Token.Forward,
        Token.Number 10, Token.Right, Token.Number 90, Token.RBracket] ∧
    build [Token.Repeat, Token.Number 4, Token.LBracket, Token.Forward,
        Token.Number 10, Token.Right, Token.Number 90, Token.RBracket] [] =
      .ok ([Expression.Repeat (Expression.Number 4)
        [Expression.Forward (Expression.Number 10),
         Expression.Right (Expression.Number 90)]], [], []) ∧
    parse_program [Token.Repeat, Token.Number 4, Token.LBracket, Token.Forward,
        Token.Number 10, Token.Right, Token.Number 90, Token.RBracket] =
      .ok [Expression.Repeat (Expression.Number 4)
        [Expression.Forward (Expression.Number 10),
         Expression.Right (Expression.Number 90)]] :=
  ⟨by decide, rfl, rfl⟩

/-- C5 (amended): a closer reaching build's dispatch while the matching
stack is empty or its top is the wrong opener fails with the UnmatchedCloser
error, and the scenario `forward 10 ]` fails exactly this way; a closer
consumed in argument position instead fails with that position's error (see
the counterexample). -/
theorem c5_amended :
    (∀ stk : List Token, (stk = [] ∨ ∃ t s2, stk = t :: s2 ∧ t ≠ Token.LBracket) →
      ∀ rest : List Token,
        build (Token.RBracket :: rest) stk =
          .error (.UnmatchedCloser Token.LBracket Token.RBracket)) ∧
    (∀ stk : List Token, (stk = [] ∨ ∃ t s2, stk = t :: s2 ∧ t ≠ Token.To) →
      ∀ rest : List Token,
        build (Token.End :: rest) stk =
          .error (.UnmatchedCloser Token.To Token.End)) ∧
    tokenize "forward 10 ]".data =
      some [Token.Forward, Token.Number 10, Token.RBracket] ∧
    parse_program [Token.Forward, Token.Number 10, Token.RBracket] =
      .error (.UnmatchedCloser Token.LBracket Token.RBracket) := by
  refine ⟨?_, ?_, by decide, rfl⟩
  · intro stk h rest
    rw [build_cons_rbracket]
    rcases h with rfl | ⟨t, s2, rfl, hne⟩
    · rfl
    · simp [pop_stack, hne]
  · intro stk h rest
    rw [build_cons_end]
    rcases h with rfl | ⟨t, s2, rfl, hne⟩
    · rfl
    · simp [pop_stack, hne]

/-- C5 witness: the first clause of the amended claim applied to an empty
stack. -/
theorem c5_witness :
    build [Token.RBracket] [] =
      .error (.UnmatchedCloser Token.LBracket Token.RBracket) :=
  c5_amended.1 [] (Or.inl rfl) []

/-- C5 counterexample: `forward ]` is a program with an extra unmatched
`]` (it is unbalanced), yet parsing fails with the expected-variable
error, not with UnmatchedCloser: the closer is consumed by build_var, not
by the dispatch loop. -/
theorem c5_cex :
    tokenize "forward ]".data = some [Token.Forward, Token.RBracket] ∧
    balanced [Token.Forward, Token.RBracket] = false ∧
    parse_program [Token.Forward, Token.RBracket] =
      .error (.ExpectedVariable (some Token.RBracket)) ∧
    Err.ExpectedVariable (some Token.RBracket) ≠
      Err.UnmatchedCloser Token.LBracket Token.RBracket ∧
    Err.ExpectedVariable (some Token.RBracket) ≠
      Err.UnmatchedCloser Token.To Token.End :=
  ⟨by decide, rfl, rfl, by decide, by decide⟩

/-- C6: a directional token consumes exactly one following token; a number
or variable becomes the wrapped operand of the matching directional node
(and the loop continues on the rest), any other token or exhausted input
fails with the expected-variable error. -/
theorem c6_directional (d : Token) (hd : is_dir d = true) (s : List Token) :
    (∀ (n : Int) (r : List Token),
      build (d :: Token.Number n :: r) s =
        (match build r s with
         | .error e => .error e
         | .ok (es, rem, st) =>
             .ok (dir_exp d (Expression.Number n) :: es, rem, st))) ∧
    (∀ (x : String) (r : List Token),
      build (d :: Token.Var x :: r) s =
        (match build r s with
         | .error e => .error e
         | .ok (es, rem, st) =>
             .ok (dir_exp d (Expression.Var x) :: es, rem, st))) ∧
    (∀ (t : Token) (r : List Token), is_arg t = false →
      build (d :: t :: r) s = .error (.ExpectedVariable (some t))) ∧
    build [d] s = .error (.ExpectedVariable none) := by
  cases d <;> simp [is_dir] at hd
  case Forward =>
    refine ⟨?_, ?_, ?_, ?_⟩
    · intro n r
      rw [build_cons_forward]
      rfl
    · intro x r
      rw [build_cons_forward]
      rfl
    · intro t r ht
      rw [build_cons_forward]
      cases t <;> first | rfl | simp [is_arg] at ht
    · rw [build_cons_forward]
      rfl
  case Back =>
    refine ⟨?_, ?_, ?_, ?_⟩
    · intro n r
      rw [build_cons_back]
      rfl
    · intro x r
      rw [build_cons_back]
      rfl
    · intro t r ht
      rw [build_cons_back]
      cases t <;> first | rfl | simp [is_arg] at ht
    · rw [build_cons_back]
      rfl
  case Right =>
    refine ⟨?_, ?_, ?_, ?_⟩
    · intro n r
      rw [build_cons_right]
      rfl
    · intro x r
      rw [build_cons_right]
      rfl
    · intro t r ht
      rw [build_cons_right]
      cases t <;> first | rfl | simp [is_arg] at ht
    · rw [build_cons_right]
      rfl
  case Left =>
    refine ⟨?_, ?_, ?_, ?_⟩
    · intro n r
      rw [build_cons_left]
      rfl
    · intro x r
      rw [build_cons_left]
      rfl
    · intro t r ht
      rw [build_cons_left]
      cases t <;> first | rfl | simp [is_arg] at ht
    · rw [build_cons_left]
      rfl

/-- C6 witness: the directional rule applied to Forward at concrete
inputs. -/
theorem c6_witness :
    build [Token.Forward, Token.Number 5] [] =
      .ok ([Expression.Forward (Expression.Number 5)], [], []) ∧
    build [Token.Forward, Token.To] [] =
      .error (.ExpectedVariable (some Token.To)) ∧
    build [Token.Forward] [] = .error (.ExpectedVariable none) := by
  have h := c6_directional Token.Forward rfl []
  refine ⟨?_, h.2.2.1 Token.To [] rfl, h.2.2.2⟩
  rw [h.1 5 []]
  rfl

/-- C7: after Repeat the parser takes one number-or-variable as the count,
pushes LBracket onto the matching stack (visible as the stack passed to the
body) and requires a literal `[` next; for either count kind, any other
next token, or exhausted input, fails with the expected-bracket error; and
the scenario `repeat 4 forward 10` fails with that error at the Forward
token. -/
theorem c7_repeat_rule (s : List Token) :
    (∀ (n : Int) (r : List Token),
      build (Token.Repeat :: Token.Number n :: Token.LBracket :: r) s =
        (match build r (Token.LBracket :: s) with
         | .error e => .error e
         | .ok (es, rem, st) =>
             .ok ([Expression.Repeat (Expression.Number n) es], rem, st))) ∧
    (∀ (x : String) (r : List Token),
      build (Token.Repeat :: Token.Var x :: Token.LBracket :: r) s =
        (match build r (Token.LBracket :: s) with
         | .error e => .error e
         | .ok (es, rem, st) =>
             .ok ([Expression.Repeat (Expression.Var x) es], rem, st))) ∧
    (∀ (n : Int) (t : Token) (r : List Token), t ≠ Token.LBracket →
      build (Token.Repeat :: Token.Number n :: t :: r) s =
        .error (.ExpectedLBracket (some t))) ∧
    (∀ (x : String) (t : Token) (r : List Token), t ≠ Token.LBracket →
      build (Token.Repeat :: Token.Var x :: t :: r) s =
        .error (.ExpectedLBracket (some t))) ∧
    (∀ n : Int, build [Token.Repeat, Token.Number n] s =
      .error (.ExpectedLBracket none)) ∧
    (∀ x : String, build [Token.Repeat, Token.Var x] s =
      .error (.ExpectedLBracket none)) ∧
    tokenize "repeat 4 forward 10".data =
      some [Token.Repeat, Token.Number 4, Token.Forward, Token.Number 10] ∧
    parse_program [Token.Repeat, Token.Number 4, Token.Forward, Token.Number 10] =
      .error (.ExpectedLBracket (some Token.Forward)) := by
  refine ⟨?_, ?_, ?_, ?_, ?_, ?_, by decide, rfl⟩
  · intro n r
    rw [build_cons_repeat, build_repeat_eq]
    simp only [build_var]
    cases hb : build r (Token.LBracket :: s) with
    | error e => simp [hb]
    | ok q =>
      obtain ⟨es, rem, st⟩ := q
      simp [hb]
  · intro x r
    rw [build_cons_repeat, build_repeat_eq]
    simp only [build_var]
    cases hb : build r (Token.LBracket :: s) with
    | error e => simp [hb]
    | ok q =>
      obtain ⟨es, rem, st⟩ := q
      simp [hb]
  · intro n t r hne
    rw [build_cons_repeat, build_repeat_eq]
    cases t <;> first | rfl | (exact absurd rfl hne)
  · intro x t r hne
    rw [build_cons_repeat, build_repeat_eq]
    cases t <;> first | rfl | (exact absurd rfl hne)
  · intro n
    rw [build_cons_repeat, build_repeat_eq]
    rfl
  · intro x
    rw [build_cons_repeat, build_repeat_eq]
    rfl

/-- C7 witness: the repeat rule applied at concrete inputs (the final stack
of the first equation exhibits the pushed LBracket), for a number count and
for a variable count, including the exhausted-input case. -/
theorem c7_witness :
    build [Token.Repeat, Token.Number 2, Token.LBracket] [] =
      .ok ([Expression.Repeat (Expression.Number 2) []], [], [Token.LBracket]) ∧
    build [Token.Repeat, Token.Number 2, Token.Forward] [] =
      .error (.ExpectedLBracket (some Token.Forward)) ∧
    build [Token.Repeat, Token.Var ":n", Token.Forward] [] =
      .error (.ExpectedLBracket (some Token.Forward)) ∧
    build [Token.Repeat, Token.Var ":n"] [] =
      .error (.ExpectedLBracket none) := by
  have h := c7_repeat_rule []
  refine ⟨?_, h.2.2.1 2 Token.Forward [] (by decide),
    h.2.2.2.1 ":n" Token.Forward [] (by decide), h.2.2.2.2.2.1 ":n"⟩
  rw [h.1 2 []]
  rfl



lemma cmp_not_arg {t : Token} (h : is_cmp t = true) : is_arg t = false := by
  cases t <;> simp [is_cmp, is_arg] at h ⊢

lemma call_args_mem (ts : List Token) {t : Token} (hm : t ∈ ts)
    (ha : is_arg t = false) : t ∈ (call_args ts).2 := by
  induction ts with
  | nil => simp at hm
  | cons r0 rest ih =>
    cases r0
    case Var x =>
      rcases List.mem_cons.mp hm with rfl | h2
      · simp [is_arg] at ha
      · simpa [call_args] using ih h2
    case Number n =>
      rcases List.mem_cons.mp hm with rfl | h2
      · simp [is_arg] at ha
      · simpa [call_args] using ih h2
    all_goals simpa [call_args] using hm

lemma to_args_mem (ts : List Token) {t : Token} (hm : t ∈ ts)
    (ha : is_var t = false) : t ∈ (to_args ts).2 := by
  induction ts with
  | nil => simp at hm
  | cons r0 rest ih =>
    cases r0
    case Var x =>
      rcases List.mem_cons.mp hm with rfl | h2
      · simp [is_var] at ha
      · simpa [to_args] using ih h2
    all_goals simpa [to_args] using hm

/-- At every fuel, a token stream containing a comparison/conditional token
makes each parsing function fail: the dispatch loop, build_var, build_name
and the bracket check reject these tokens, and the greedy argument loops
never consume them. -/
lemma c9F : ∀ fuel,
    (∀ ts s, (∃ t ∈ ts, is_cmp t = true) → ∃ e, buildF fuel ts s = .error e) ∧
    (∀ ts s, (∃ t ∈ ts, is_cmp t = true) → ∃ e, build_repeatF fuel ts s = .error e) ∧
    (∀ ts s, (∃ t ∈ ts, is_cmp t = true) → ∃ e, build_toF fuel ts s = .error e) := by
  intro fuel
  induction fuel with
  | zero => exact ⟨fun ts s h => ⟨.OutOfFuel, rfl⟩, fun ts s h => ⟨.OutOfFuel, rfl⟩,
      fun ts s h => ⟨.OutOfFuel, rfl⟩⟩
  | succ f ih =>
    obtain ⟨ihb, ihr, iht⟩ := ih
    refine ⟨?_, ?_, ?_⟩
    · intro ts s h
      obtain ⟨t, hmem, hcmp⟩ := h
      cases ts with
      | nil => simp at hmem
      | cons next rest =>
        cases next
        case Forward =>
          have htrest : t ∈ rest := by
            rcases List.mem_cons.mp hmem with rfl | h2
            · simp [is_cmp] at hcmp
            · exact h2
          cases hv : build_var rest with
          | error e => exact ⟨e, by rw [buildF_step_forward, hv]⟩
          | ok p =>
            obtain ⟨v, r⟩ := p
            obtain ⟨t0, hts, harg⟩ := build_var_ok hv
            have htr : t ∈ r := by
              rw [hts] at htrest
              rcases List.mem_cons.mp htrest with rfl | h3
              · rw [cmp_not_arg hcmp] at harg; simp at harg
              · exact h3
            obtain ⟨e2, he2⟩ := ihb r s ⟨t, htr, hcmp⟩
            exact ⟨e2, by simp [buildF_step_forward, hv, he2]⟩
        case Back =>
          have htrest : t ∈ rest := by
            rcases List.mem_cons.mp hmem with rfl | h2
            · simp [is_cmp] at hcmp
            · exact h2
          cases hv : build_var rest with
          | error e => exact ⟨e, by rw [buildF_step_back, hv]⟩
          | ok p =>
            obtain ⟨v, r⟩ := p
            obtain ⟨t0, hts, harg⟩ := build_var_ok hv
            have htr : t ∈ r := by
              rw [hts] at htrest
              rcases List.mem_cons.mp htrest with rfl | h3
              · rw [cmp_not_arg hcmp] at harg; simp at harg
              · exact h3
            obtain ⟨e2, he2⟩ := ihb r s ⟨t, htr, hcmp⟩
            exact ⟨e2, by simp [buildF_step_back, hv, he2]⟩
        case Right =>
          have htrest : t ∈ rest := by
            rcases List.mem_cons.mp hmem with rfl | h2
            · simp [is_cmp] at hcmp
            · exact h2
          cases hv : build_var rest with
          | error e => exact ⟨e, by rw [buildF_step_right, hv]⟩
          | ok p =>
            obtain ⟨v, r⟩ := p
            obtain ⟨t0, hts, harg⟩ := build_var_ok hv
            have htr : t ∈ r := by
              rw [hts] at htrest
              rcases List.mem_cons.mp htrest with rfl | h3
              · rw [cmp_not_arg hcmp] at harg; simp at harg
              · exact h3
            obtain ⟨e2, he2⟩ := ihb r s ⟨t, htr, hcmp⟩
            exact ⟨e2, by simp [buildF_step_right, hv, he2]⟩
        case Left =>
          have htrest : t ∈ rest := by
            rcases List.mem_cons.mp hmem with rfl | h2
            · simp [is_cmp] at hcmp
            · exact h2
          cases hv : build_var rest with
          | error e => exact ⟨e, by rw [buildF_step_left, hv]⟩
          | ok p =>
            obtain ⟨v, r⟩ := p
            obtain ⟨t0, hts, harg⟩ := build_var_ok hv
            have htr : t ∈ r := by
              rw [hts] at htrest
              rcases List.mem_cons.mp htrest with rfl | h3
              · rw [cmp_not_arg hcmp] at harg; simp at harg
              · exact h3
            obtain ⟨e2, he2⟩ := ihb r s ⟨t, htr, hcmp⟩
            exact ⟨e2, by simp [buildF_step_left, hv, he2]⟩
        case Repeat =>
          have htrest : t ∈ rest := by
            rcases List.mem_cons.mp hmem with rfl | h2
            · simp [is_cmp] at hcmp
            · exact h2
          cases hr : build_repeatF f rest s with
          | error e => exact ⟨e, by simp [buildF_step_repeat, hr]⟩
          | ok p =>
            obtain ⟨e2, he2⟩ := ihr rest s ⟨t, htrest, hcmp⟩
            rw [he2] at hr
            cases hr
        case To =>
          have htrest : t ∈ rest := by
            rcases List.mem_cons.mp hmem with rfl | h2
            · simp [is_cmp] at hcmp
            · exact h2
          cases hr : build_toF f rest s with
          | error e => exact ⟨e, by simp [buildF_step_to, hr]⟩
          | ok p =>
            obtain ⟨e2, he2⟩ := iht rest s ⟨t, htrest, hcmp⟩
            rw [he2] at hr
            cases hr
        case RBracket =>
          have htrest : t ∈ rest := by
            rcases List.mem_cons.mp hmem with rfl | h2
            · simp [is_cmp] at hcmp
            · exact h2
          cases hp : pop_stack .LBracket .RBracket s with
          | error e => exact ⟨e, by rw [buildF_step_rbracket, hp]⟩
          | ok stk =>
            obtain ⟨e2, he2⟩ := ihb rest stk ⟨t, htrest, hcmp⟩
            exact ⟨e2, by simp [buildF_step_rbracket, hp, he2]⟩
        case End =>
          have htrest : t ∈ rest := by
            rcases List.mem_cons.mp hmem with rfl | h2
            · simp [is_cmp] at hcmp
            · exact h2
          cases hp : pop_stack .To .End s with
          | error e => exact ⟨e, by rw [buildF_step_end, hp]⟩
          | ok stk =>
            obtain ⟨e2, he2⟩ := ihb rest stk ⟨t, htrest, hcmp⟩
            exact ⟨e2, by simp [buildF_step_end, hp, he2]⟩
        case Ident x =>
          have htrest : t ∈ rest := by
            rcases List.mem_cons.mp hmem with rfl | h2
            · simp [is_cmp] at hcmp
            · exact h2
          cases hc : build_call rest x with
          | mk exp r =>
            have htr : t ∈ r := by
              have h4 := call_args_mem rest htrest (cmp_not_arg hcmp)
              have h5 : (build_call rest x).2 = r := by rw [hc]
              simp only [build_call] at h5
              exact h5 ▸ h4
            obtain ⟨e2, he2⟩ := ihb r s ⟨t, htr, hcmp⟩
            exact ⟨e2, by simp [buildF_step_ident, hc, he2]⟩
        all_goals exact ⟨_, rfl⟩
    · intro ts s h
      obtain ⟨t, hmem, hcmp⟩ := h
      cases hv : build_var ts with
      | error e => exact ⟨e, by rw [build_repeatF_step, hv]⟩
      | ok p =>
        obtain ⟨count, rest⟩ := p
        obtain ⟨t0, hts, harg⟩ := build_var_ok hv
        have htrest : t ∈ rest := by
          rw [hts] at hmem
          rcases List.mem_cons.mp hmem with rfl | h2
          · rw [cmp_not_arg hcmp] at harg; simp at harg
          · exact h2
        rw [build_repeatF_step, hv]
        cases rest with
        | nil => simp at htrest
        | cons r0 rest2 =>
          cases r0
          case LBracket =>
            rcases List.mem_cons.mp htrest with rfl | h3
            · simp [is_cmp] at hcmp
            · obtain ⟨e2, he2⟩ := ihb rest2 (Token.LBracket :: s) ⟨t, h3, hcmp⟩
              exact ⟨e2, by simp [he2]⟩
          all_goals exact ⟨_, rfl⟩
    · intro ts s h
      obtain ⟨t, hmem, hcmp⟩ := h
      cases hn : build_name ts with
      | error e => exact ⟨e, by rw [build_toF_step, hn]⟩
      | ok p =>
        obtain ⟨ident, rest⟩ := p
        obtain ⟨x, hts, hei⟩ := build_name_ok hn
        have htrest : t ∈ rest := by
          rw [hts] at hmem
          rcases List.mem_cons.mp hmem with rfl | h2
          · simp [is_cmp] at hcmp
          · exact h2
        have htr : t ∈ (to_args rest).2 :=
          to_args_mem rest htrest (by cases t <;> simp [is_cmp, is_var] at hcmp ⊢)
        obtain ⟨e2, he2⟩ := ihb (to_args rest).2 (Token.To :: s) ⟨t, htr, hcmp⟩
        refine ⟨e2, ?_⟩
        rw [build_toF_step, hn]
        dsimp only
        simp [he2]

/-- C9: no accepting parse exists for a token stream containing an If, Gtr
or Less token: build fails with some error for every stack, and so does the
whole parse. -/
theorem c9_comparison_rejected :
    ∀ ts : List Token, (∃ t ∈ ts, is_cmp t = true) →
      (∀ s, ∃ e, build ts s = .error e) ∧ (∃ e, parse_program ts = .error e) := by
  intro ts h
  have hb : ∀ s, ∃ e, build ts s = .error e := fun s => (c9F (ts.length + 1)).1 ts s h
  refine ⟨hb, ?_⟩
  obtain ⟨e, he⟩ := hb []
  exact ⟨e, by simp [parse_program, he]⟩

/-- C9 witness: the rejection theorem applied to the singleton If
program. -/
theorem c9_witness :
    (∀ s, ∃ e, build [Token.If] s = .error e) ∧
    (∃ e, parse_program [Token.If] = .error e) :=
  c9_comparison_rejected [Token.If] ⟨Token.If, by simp, rfl⟩



/-- Does the token list start with a number/variable token (the tokens the
greedy argument loop would consume)? -/
def starts_arg : List Token → Bool
  | t :: _ => is_arg t
  | [] => false

/-- Does the token list start with a variable token? -/
def starts_var : List Token → Bool
  | t :: _ => is_var t
  | [] => false

/-- Grammatically well-formed token sequences: the balanced programs that
also satisfy the parser's local requirements (a directional command is
followed by a number/variable, a repeat by a count and a bracketed block, a
to by an identifier, variable parameters, a body and end, a call by
number/variable arguments). -/
inductive WF : List Token → Prop where
  | nil : WF []
  | dir (d v : Token) (rest : List Token) : is_dir d = true → is_arg v = true →
      WF rest → WF (d :: v :: rest)
  | rep (v : Token) (body rest : List Token) : is_arg v = true → WF body →
      WF rest →
      WF (Token.Repeat :: v :: Token.LBracket :: (body ++ Token.RBracket :: rest))
  | toDef (x : String) (ps body rest : List Token) : (∀ p ∈ ps, is_var p = true) →
      WF body → WF rest →
      WF (Token.To :: Token.Ident x :: (ps ++ (body ++ Token.End :: rest)))
  | call (x : String) (args rest : List Token) : (∀ a ∈ args, is_arg a = true) →
      WF rest → WF (Token.Ident x :: (args ++ rest))

lemma wf_starts {b : List Token} (h : WF b) : starts_arg b = false := by
  cases h with
  | nil => rfl
  | dir d v rest hd hv hr => cases d <;> first | rfl | simp [is_dir] at hd
  | rep v body rest hv hb2 hr => rfl
  | toDef x ps body rest hp hb2 hr => rfl
  | call x args rest ha hr => rfl

lemma starts_arg_append {b l : List Token} (hb : WF b) (hl : starts_arg l = false) :
    starts_arg (b ++ l) = false := by
  cases b with
  | nil => simpa using hl
  | cons t r =>
    have h5 := wf_starts hb
    simpa [starts_arg] using h5

lemma to_args_append_snd : ∀ ps : List Token, (∀ p ∈ ps, is_var p = true) →
    ∀ X : List Token, starts_var X = false → (to_args (ps ++ X)).2 = X := by
  intro ps
  induction ps with
  | nil =>
    intro _ X hX
    cases X with
    | nil => rfl
    | cons t r => cases t <;> first | rfl | simp [starts_var, is_var] at hX
  | cons p ps ih =>
    intro hps X hX
    have hp : is_var p = true := hps p (by simp)
    cases p <;> simp [is_var] at hp
    case Var y =>
      simp only [List.cons_append, to_args]
      exact ih (fun q hq => hps q (by simp [hq])) X hX

lemma call_args_append_snd : ∀ args : List Token, (∀ a ∈ args, is_arg a = true) →
    ∀ X : List Token, starts_arg X = false → (call_args (args ++ X)).2 = X := by
  intro args
  induction args with
  | nil =>
    intro _ X hX
    cases X with
    | nil => rfl
    | cons t r => cases t <;> first | rfl | simp [starts_arg, is_arg] at hX
  | cons a args ih =>
    intro hargs X hX
    have ha : is_arg a = true := hargs a (by simp)
    cases a <;> simp [is_arg] at ha
    case Number n =>
      simp only [List.cons_append, call_args]
      exact ih (fun q hq => hargs q (by simp [hq])) X hX
    case Var y =>
      simp only [List.cons_append, call_args]
      exact ih (fun q hq => hargs q (by simp [hq])) X hX

/-- The success/failure outcome of build together with the final matching
stack, forgetting the produced expressions. -/
def build_status (ts s : List Token) : Except Err (List Token) :=
  match build ts s with
  | .error e => .error e
  | .ok (_, _, st) => .ok st

lemma status_dir {d v : Token} (hd : is_dir d = true) (hv : is_arg v = true)
    (X s : List Token) : build_status (d :: v :: X) s = build_status X s := by
  cases d <;> simp [is_dir] at hd
  case Forward =>
    cases v <;> simp [is_arg] at hv
    case Number n =>
      simp only [build_status, build_cons_forward, build_var]
      cases hb : build X s with
      | error e => simp [hb]
      | ok q => obtain ⟨es, rem, st⟩ := q; simp [hb]
    case Var y =>
      simp only [build_status, build_cons_forward, build_var]
      cases hb : build X s with
      | error e => simp [hb]
      | ok q => obtain ⟨es, rem, st⟩ := q; simp [hb]
  case Back =>
    cases v <;> simp [is_arg] at hv
    case Number n =>
      simp only [build_status, build_cons_back, build_var]
      cases hb : build X s with
      | error e => simp [hb]
      | ok q => obtain ⟨es, rem, st⟩ := q; simp [hb]
    case Var y =>
      simp only [build_status, build_cons_back, build_var]
      cases hb : build X s with
      | error e => simp [hb]
      | ok q => obtain ⟨es, rem, st⟩ := q; simp [hb]
  case Right =>
    cases v <;> simp [is_arg] at hv
    case Number n =>
      simp only [build_status, build_cons_right, build_var]
      cases hb : build X s with
      | error e => simp [hb]
      | ok q => obtain ⟨es, rem, st⟩ := q; simp [hb]
    case Var y =>
      simp only [build_status, build_cons_right, build_var]
      cases hb : build X s with
      | error e => simp [hb]
      | ok q => obtain ⟨es, rem, st⟩ := q; simp [hb]
  case Left =>
    cases v <;> simp [is_arg] at hv
    case Number n =>
      simp only [build_status, build_cons_left, build_var]
      cases hb : build X s with
      | error e => simp [hb]
      | ok q => obtain ⟨es, rem, st⟩ := q; simp [hb]
    case Var y =>
      simp only [build_status, build_cons_left, build_var]
      cases hb : build X s with
      | error e => simp [hb]
      | ok q => obtain ⟨es, rem, st⟩ := q; simp [hb]

lemma status_rbracket (X s : List Token) :
    build_status (Token.RBracket :: X) (Token.LBracket :: s) = build_status X s := by
  simp [build_status, build_cons_rbracket, pop_stack]

lemma status_end (X s : List Token) :
    build_status (Token.End :: X) (Token.To :: s) = build_status X s := by
  simp [build_status, build_cons_end, pop_stack]

lemma status_repeat {v : Token} (hv : is_arg v = true) (X s : List Token) :
    build_status (Token.Repeat :: v :: Token.LBracket :: X) s =
      build_status X (Token.LBracket :: s) := by
  cases v <;> simp [is_arg] at hv
  case Number n =>
    simp only [build_status, build_cons_repeat, build_repeat_eq, build_var]
    cases hb : build X (Token.LBracket :: s) with
    | error e => simp [hb]
    | ok q => obtain ⟨es, rem, st⟩ := q; simp [hb]
  case Var y =>
    simp only [build_status, build_cons_repeat, build_repeat_eq, build_var]
    cases hb : build X (Token.LBracket :: s) with
    | error e => simp [hb]
    | ok q => obtain ⟨es, rem, st⟩ := q; simp [hb]

lemma status_to {x : String} {ps : List Token} (hps : ∀ p ∈ ps, is_var p = true)
    (X s : List Token) (hX : starts_var X = false) :
    build_status (Token.To :: Token.Ident x :: (ps ++ X)) s =
      build_status X (Token.To :: s) := by
  simp only [build_status, build_cons_to, build_to_eq, build_name]
  rw [to_args_append_snd ps hps X hX]
  cases hb : build X (Token.To :: s) with
  | error e => simp [hb]
  | ok q => obtain ⟨es, rem, st⟩ := q; simp [hb]

lemma status_ident {x : String} {args : List Token}
    (hargs : ∀ a ∈ args, is_arg a = true) (X s : List Token)
    (hX : starts_arg X = false) :
    build_status (Token.Ident x :: (args ++ X)) s = build_status X s := by
  simp only [build_status, build_cons_ident, build_call]
  rw [call_args_append_snd args hargs X hX]
  cases hb : build X s with
  | error e => simp [hb]
  | ok q => obtain ⟨es, rem, st⟩ := q; simp [hb]

/-- A well-formed block can be skipped: running build on `b ++ extra` has
the same outcome and final stack as running it on `extra` alone, for every
ambient stack, provided the continuation does not start with a token the
greedy argument loops could swallow. -/
lemma wf_skip {b : List Token} (h : WF b) :
    ∀ extra s, starts_arg extra = false →
      build_status (b ++ extra) s = build_status extra s := by
  induction h with
  | nil => intro extra s hx; rfl
  | dir d v rest hd hv hrest ih =>
    intro extra s hx
    have e1 : (d :: v :: rest) ++ extra = d :: v :: (rest ++ extra) := rfl
    rw [e1, status_dir hd hv]
    exact ih extra s hx
  | rep v body rest hv hbody hrest ihb ihr =>
    intro extra s hx
    have e1 :
        (Token.Repeat :: v :: Token.LBracket :: (body ++ Token.RBracket :: rest)) ++
            extra =
          Token.Repeat :: v :: Token.LBracket ::
            (body ++ (Token.RBracket :: (rest ++ extra))) := by
      simp
    rw [e1, status_repeat hv]
    rw [ihb (Token.RBracket :: (rest ++ extra)) (Token.LBracket :: s) rfl]
    rw [status_rbracket]
    exact ihr extra s hx
  | toDef x ps body rest hps hbody hrest ihb ihr =>
    intro extra s hx
    have e1 :
        (Token.To :: Token.Ident x :: (ps ++ (body ++ Token.End :: rest))) ++ extra =
          Token.To :: Token.Ident x ::
            (ps ++ (body ++ (Token.End :: (rest ++ extra)))) := by
      simp
    rw [e1]
    have hX : starts_var (body ++ (Token.End :: (rest ++ extra))) = false := by
      cases body with
      | nil => rfl
      | cons t r =>
        have h5 := wf_starts hbody
        cases t <;> first | rfl | simp [starts_arg, is_arg] at h5
    rw [status_to hps _ _ hX]
    rw [ihb (Token.End :: (rest ++ extra)) (Token.To :: s) rfl]
    rw [status_end]
    exact ihr extra s hx
  | call x args rest hargs hrest ih =>
    intro extra s hx
    have e1 : (Token.Ident x :: (args ++ rest)) ++ extra =
        Token.Ident x :: (args ++ (rest ++ extra)) := by
      simp
    rw [e1]
    have hX : starts_arg (rest ++ extra) = false := starts_arg_append hrest hx
    rw [status_ident hargs _ _ hX]
    exact ih extra s hx

/-- C3 (amended): every grammatically well-formed program parses to
completion without error with an empty residual matching stack, and the
full parse accepts it. -/
theorem c3_amended :
    ∀ ts : List Token, WF ts →
      ∃ exps, build ts [] = .ok (exps, [], []) ∧ parse_program ts = .ok exps := by
  intro ts h
  have h1 : build_status (ts ++ []) [] = build_status [] [] := wf_skip h [] [] rfl
  rw [List.append_nil] at h1
  cases hb : build ts [] with
  | error e => simp [build_status, hb, build_nil] at h1
  | ok q =>
    obtain ⟨exps, rem, st⟩ := q
    have hrem : rem = [] := build_rem_nil hb
    have hst : st = [] := by
      simp [build_status, hb, build_nil] at h1
      exact h1
    subst hrem
    subst hst
    exact ⟨exps, rfl, by simp [parse_program, hb]⟩

/-- C3 witness: the amended claim applied to the concrete well-formed
program `repeat 4 [ forward 10 right 90 ]`. -/
theorem c3_witness :
    ∃ exps,
      build [Token.Repeat, Token.Number 4, Token.LBracket, Token.Forward,
        Token.Number 10, Token.Right, Token.Number 90, Token.RBracket] [] =
        .ok (exps, [], []) ∧
      parse_program [Token.Repeat, Token.Number 4, Token.LBracket, Token.Forward,
        Token.Number 10, Token.Right, Token.Number 90, Token.RBracket] =
        .ok exps := by
  apply c3_amended
  show WF (Token.Repeat :: Token.Number 4 :: Token.LBracket ::
    ([Token.Forward, Token.Number 10, Token.Right, Token.Number 90] ++
      Token.RBracket :: []))
  exact WF.rep (Token.Number 4) _ [] rfl
    (WF.dir Token.Forward (Token.Number 10) _ rfl rfl
      (WF.dir Token.Right (Token.Number 90) [] rfl rfl WF.nil))
    WF.nil

/-- C3 counterexample: the token stream of `[ ]` is balanced (every bracket
matched, correctly nested) but parsing panics with the unexpected-token
error on the bare `[`, so balancedness alone does not imply parsing
success. -/
theorem c3_cex :
    tokenize "[ ]".data = some [Token.LBracket, Token.RBracket] ∧
    balanced [Token.LBracket, Token.RBracket] = true ∧
    parse_program [Token.LBracket, Token.RBracket] =
      .error (.UnexpectedToken Token.LBracket) :=
  ⟨by decide, rfl, rfl⟩



/-- The twelve keyword arms of the lexer's classification match, as a
lookup table (statement-side reformulation of src/main.rs:44-55). -/
def keyword_table : List (String × Token) :=
  [("forward", Token.Forward), ("back", Token.Back), ("right", Token.Right),
   ("left", Token.Left), ("repeat", Token.Repeat), ("[", Token.LBracket),
   ("]", Token.RBracket), ("to", Token.To), ("end", Token.End),
   ("if", Token.If), (">", Token.Gtr), ("<", Token.Less)]

/-- C8: classification of a matched substring follows the priority order of
the spec: keyword table first, then signed 32-bit integer parsing, then the
leading-sigil variable test, and otherwise an identifier. -/
theorem c8_classification (s : String) :
    (∀ t : Token, (s, t) ∈ keyword_table → classify s = some t) ∧
    ((∀ t : Token, (s, t) ∉ keyword_table) →
      ∀ n : Int, parse_i32 s = some n → classify s = some (.Number n)) ∧
    ((∀ t : Token, (s, t) ∉ keyword_table) → parse_i32 s = none →
      s.data.head? = some ':' → classify s = some (.Var s)) ∧
    ((∀ t : Token, (s, t) ∉ keyword_table) → parse_i32 s = none →
      s ≠ "" → (∀ c, s.data.head? = some c → c ≠ ':') →
      classify s = some (.Ident s)) := by
  refine ⟨?_, ?_, ?_, ?_⟩
  · intro t h
    fin_cases h <;> rfl
  · intro hk n hp
    have h1 : ¬s = "forward" := fun he => hk Token.Forward (by rw [he]; simp [keyword_table])
    have h2 : ¬s = "back" := fun he => hk Token.Back (by rw [he]; simp [keyword_table])
    have h3 : ¬s = "right" := fun he => hk Token.Right (by rw [he]; simp [keyword_table])
    have h4 : ¬s = "left" := fun he => hk Token.Left (by rw [he]; simp [keyword_table])
    have h5 : ¬s = "repeat" := fun he => hk Token.Repeat (by rw [he]; simp [keyword_table])
    have h6 : ¬s = "[" := fun he => hk Token.LBracket (by rw [he]; simp [keyword_table])
    have h7 : ¬s = "]" := fun he => hk Token.RBracket (by rw [he]; simp [keyword_table])
    have h8 : ¬s = "to" := fun he => hk Token.To (by rw [he]; simp [keyword_table])
    have h9 : ¬s = "end" := fun he => hk Token.End (by rw [he]; simp [keyword_table])
    have h10 : ¬s = "if" := fun he => hk Token.If (by rw [he]; simp [keyword_table])
    have h11 : ¬s = ">" := fun he => hk Token.Gtr (by rw [he]; simp [keyword_table])
    have h12 : ¬s = "<" := fun he => hk Token.Less (by rw [he]; simp [keyword_table])
    simp [classify, h1, h2, h3, h4, h5, h6, h7, h8, h9, h10, h11, h12, hp]
  · intro hk hp hhead
    have h1 : ¬s = "forward" := fun he => hk Token.Forward (by rw [he]; simp [keyword_table])
    have h2 : ¬s = "back" := fun he => hk Token.Back (by rw [he]; simp [keyword_table])
    have h3 : ¬s = "right" := fun he => hk Token.Right (by rw [he]; simp [keyword_table])
    have h4 : ¬s = "left" := fun he => hk Token.Left (by rw [he]; simp [keyword_table])
    have h5 : ¬s = "repeat" := fun he => hk Token.Repeat (by rw [he]; simp [keyword_table])
    have h6 : ¬s = "[" := fun he => hk Token.LBracket (by rw [he]; simp [keyword_table])
    have h7 : ¬s = "]" := fun he => hk Token.RBracket (by rw [he]; simp [keyword_table])
    have h8 : ¬s = "to" := fun he => hk Token.To (by rw [he]; simp [keyword_table])
    have h9 : ¬s = "end" := fun he => hk Token.End (by rw [he]; simp [keyword_table])
    have h10 : ¬s = "if" := fun he => hk Token.If (by rw [he]; simp [keyword_table])
    have h11 : ¬s = ">" := fun he => hk Token.Gtr (by rw [he]; simp [keyword_table])
    have h12 : ¬s = "<" := fun he => hk Token.Less (by rw [he]; simp [keyword_table])
    cases hd : s.data with
    | nil => rw [hd] at hhead; simp at hhead
    | cons c cs =>
      rw [hd] at hhead
      simp at hhead
      subst hhead
      simp [classify, h1, h2, h3, h4, h5, h6, h7, h8, h9, h10, h11, h12, hp, hd]
  · intro hk hp hne hhead
    have h1 : ¬s = "forward" := fun he => hk Token.Forward (by rw [he]; simp [keyword_table])
    have h2 : ¬s = "back" := fun he => hk Token.Back (by rw [he]; simp [keyword_table])
    have h3 : ¬s = "right" := fun he => hk Token.Right (by rw [he]; simp [keyword_table])
    have h4 : ¬s = "left" := fun he => hk Token.Left (by rw [he]; simp [keyword_table])
    have h5 : ¬s = "repeat" := fun he => hk Token.Repeat (by rw [he]; simp [keyword_table])
    have h6 : ¬s = "[" := fun he => hk Token.LBracket (by rw [he]; simp [keyword_table])
    have h7 : ¬s = "]" := fun he => hk Token.RBracket (by rw [he]; simp [keyword_table])
    have h8 : ¬s = "to" := fun he => hk Token.To (by rw [he]; simp [keyword_table])
    have h9 : ¬s = "end" := fun he => hk Token.End (by rw [he]; simp [keyword_table])
    have h10 : ¬s = "if" := fun he => hk Token.If (by rw [he]; simp [keyword_table])
    have h11 : ¬s = ">" := fun he => hk Token.Gtr (by rw [he]; simp [keyword_table])
    have h12 : ¬s = "<" := fun he => hk Token.Less (by rw [he]; simp [keyword_table])
    cases hd : s.data with
    | nil => exact absurd (String.ext (by simp [hd])) hne
    | cons c cs =>
      have hc : c ≠ ':' := hhead c (by rw [hd]; rfl)
      simp [classify, h1, h2, h3, h4, h5, h6, h7, h8, h9, h10, h11, h12, hp, hd, hc]

/-- C8 witness: the classification priority applied to a keyword, a
number, a variable and an identifier. -/
theorem c8_witness :
    classify "forward" = some Token.Forward ∧
    classify "90" = some (Token.Number 90) ∧
    classify ":side" = some (Token.Var ":side") ∧
    classify "square" = some (Token.Ident "square") := by
  refine ⟨(c8_classification "forward").1 Token.Forward (by simp [keyword_table]),
    (c8_classification "90").2.1 ?_ 90 (by decide),
    (c8_classification ":side").2.2.1 ?_ (by decide) (by decide),
    (c8_classification "square").2.2.2 ?_ (by decide) (by decide) ?_⟩
  · intro t h
    simp [keyword_table] at h
  · intro t h
    simp [keyword_table] at h
  · intro t h
    simp [keyword_table] at h
  · intro c h
    injection h with h2
    rw [← h2]
    decide

lemma scanF_ne_nil : ∀ fuel cs s, s ∈ scanF fuel cs → s.data ≠ [] := by
  intro fuel
  induction fuel with
  | zero => intro cs s h; simp [scanF] at h
  | succ f ih =>
    intro cs s h
    cases cs with
    | nil => simp [scanF] at h
    | cons c cs =>
      simp only [scanF] at h
      split at h
      · split at h
        · exact ih cs s h
        case isFalse h2 =>
          rcases List.mem_cons.mp h with rfl | h3
          · intro hh
            exact h2 (List.append_eq_nil.mp hh).2
          · exact ih _ s h3
      · split at h
        · rcases List.mem_cons.mp h with rfl | h3
          · simp
          · exact ih _ s h3
        · split at h
          · split at h
            · rcases List.mem_cons.mp h with rfl | h3
              · simp
              · exact ih _ s h3
            · rcases List.mem_cons.mp h with rfl | h3
              · simp
              · exact ih _ s h3
          · split at h
            · split at h
              · rcases List.mem_cons.mp h with rfl | h3
                · simp
                · exact ih _ s h3
              · exact ih _ s h
            · split at h
              · split at h
                · rcases List.mem_cons.mp h with rfl | h3
                  · simp
                  · exact ih _ s h3
                · rcases List.mem_cons.mp h with rfl | h3
                  · simp
                  · exact ih _ s h3
              · exact ih _ s h

lemma classify_isSome {s : String} (h : s.data ≠ []) :
    (classify s).isSome = true := by
  cases hd : s.data with
  | nil => exact absurd hd h
  | cons c cs =>
    by_cases e1 : s = "forward"
    · simp [classify, e1]
    by_cases e2 : s = "back"
    · simp [classify, e1, e2]
    by_cases e3 : s = "right"
    · simp [classify, e1, e2, e3]
    by_cases e4 : s = "left"
    · simp [classify, e1, e2, e3, e4]
    by_cases e5 : s = "repeat"
    · simp [classify, e1, e2, e3, e4, e5]
    by_cases e6 : s = "["
    · simp [classify, e1, e2, e3, e4, e5, e6]
    by_cases e7 : s = "]"
    · simp [classify, e1, e2, e3, e4, e5, e6, e7]
    by_cases e8 : s = "to"
    · simp [classify, e1, e2, e3, e4, e5, e6, e7, e8]
    by_cases e9 : s = "end"
    · simp [classify, e1, e2, e3, e4, e5, e6, e7, e8, e9]
    by_cases e10 : s = "if"
    · simp [classify, e1, e2, e3, e4, e5, e6, e7, e8, e9, e10]
    by_cases e11 : s = ">"
    · simp [classify, e1, e2, e3, e4, e5, e6, e7, e8, e9, e10, e11]
    by_cases e12 : s = "<"
    · simp [classify, e1, e2, e3, e4, e5, e6, e7, e8, e9, e10, e11, e12]
    cases hp : parse_i32 s with
    | some n =>
      simp [classify, e1, e2, e3, e4, e5, e6, e7, e8, e9, e10, e11, e12, hp]
    | none =>
      by_cases hc : c = ':'
      · simp [classify, e1, e2, e3, e4, e5, e6, e7, e8, e9, e10, e11, e12, hp,
          hd, hc]
      · simp [classify, e1, e2, e3, e4, e5, e6, e7, e8, e9, e10, e11, e12, hp,
          hd, hc]

lemma classify_all_isSome : ∀ l : List String,
    (∀ s ∈ l, (classify s).isSome = true) → (classify_all l).isSome = true := by
  intro l
  induction l with
  | nil => intro _; rfl
  | cons a l ih =>
    intro h
    have ha := h a (by simp)
    cases hc : classify a with
    | none => rw [hc] at ha; simp at ha
    | some t =>
      have h2 := ih (fun s hs => h s (by simp [hs]))
      cases hm : classify_all l with
      | none => rw [hm] at h2; simp at h2
      | some ts => simp [classify_all, hc, hm]

/-- C10: every substring the lexer's pattern scan produces is nonempty, so
its classification (whose only panic is the first-character unwrap on an
empty string, modelled as `none`) always succeeds and so does the whole
lexer loop; and popping the front of a deque the loop guard has checked to
be nonempty always succeeds. -/
theorem c10_safety :
    (∀ (cs : List Char) (s : String), s ∈ scan cs →
      s ≠ "" ∧ (classify s).isSome = true) ∧
    (∀ cs : List Char, (tokenize cs).isSome = true) ∧
    (∀ ts : List Token, ts ≠ [] → (pop_front ts).isSome = true) := by
  have hne : ∀ (cs : List Char) (s : String), s ∈ scan cs → s.data ≠ [] :=
    fun cs s h => scanF_ne_nil _ cs s h
  refine ⟨?_, ?_, ?_⟩
  · intro cs s h
    have h2 := hne cs s h
    refine ⟨?_, classify_isSome h2⟩
    intro he
    rw [he] at h2
    exact h2 rfl
  · intro cs
    exact classify_all_isSome _ (fun s hs => classify_isSome (hne cs s hs))
  · intro ts h
    cases ts with
    | nil => exact absurd rfl h
    | cons t r => rfl

/-- C10 witness: the safety theorem applied to a concrete scan result, a
concrete lexer run and a concrete nonempty deque. -/
theorem c10_witness :
    ("10" ≠ "" ∧ (classify "10").isSome = true) ∧
    (tokenize "forward 10".data).isSome = true ∧
    (pop_front [Token.Forward]).isSome = true :=
  ⟨c10_safety.1 "forward 10".data "10" (by decide),
   c10_safety.2.1 "forward 10".data,
   c10_safety.2.2 [Token.Forward] (by decide)⟩


end Logo
